import Mathlib

/-!
Verification of the Formbricks specification claims against a shallow
embedding of the repository's code.

The tamper-evident audit-log subsystem (Recorder, Verifier, Redactor,
Chain-Head Tracker) is described by the specification and the audit-logging
documentation shipped in the repository, but its implementation is not part
of the source corpus; the corresponding definitions are therefore modelled
from the spec and are marked as such in their doc comments.  The remaining
components (survey-status cron handler, in-memory rate limiter, project
permission lookup, webhook update/delete error handling) are embedded
directly from the TypeScript sources.
-/

namespace Formbricks

/-! ## Injective codes

Auxiliary injective encodings of strings, options and lists into natural
numbers.  They serve as the canonical serialization domain for the audit
chain: the spec's collision-resistant SHA-256 is idealized as an injective
function on the canonically serialized content. -/

/-- Injective code of a list of naturals, via the Cantor pairing function. -/
def listCode : List Nat → Nat
  | [] => 0
  | a :: l => Nat.pair a (listCode l) + 1

theorem listCode_inj : ∀ l₁ l₂ : List Nat, listCode l₁ = listCode l₂ → l₁ = l₂
  | [], [], _ => rfl
  | [], _ :: _, h => by simp [listCode] at h
  | _ :: _, [], h => by simp [listCode] at h
  | a :: l₁, b :: l₂, h => by
    simp only [listCode, Nat.add_right_cancel_iff] at h
    obtain ⟨h1, h2⟩ := Nat.pair_eq_pair.mp h
    rw [h1, listCode_inj l₁ l₂ h2]

theorem charToNat_inj : Function.Injective Char.toNat := by
  intro a b h
  exact Char.ext (UInt32.ext h)

/-- Injective code of a string. -/
def strCode (s : String) : Nat := listCode (s.toList.map Char.toNat)

theorem strCode_inj : Function.Injective strCode := by
  intro s t h
  have hl := listCode_inj _ _ h
  have hm := List.map_injective_iff.mpr charToNat_inj hl
  exact String.toList_inj.mp hm

/-- Injective code of an optional string. -/
def optStrCode : Option String → Nat
  | none => 0
  | some s => strCode s + 1

theorem optStrCode_inj : Function.Injective optStrCode := by
  intro a b h
  cases a <;> cases b <;> simp [optStrCode] at h ⊢
  exact strCode_inj h

/-- Injective code of a key/value pair of strings. -/
def kvCode (kv : String × String) : Nat := Nat.pair (strCode kv.1) (strCode kv.2)

theorem kvCode_inj : Function.Injective kvCode := by
  intro a b h
  obtain ⟨h1, h2⟩ := Nat.pair_eq_pair.mp h
  exact Prod.ext (strCode_inj h1) (strCode_inj h2)

/-- Injective code of an optional ordered mapping of changed fields. -/
def changesCode : Option (List (String × String)) → Nat
  | none => 0
  | some l => listCode (l.map kvCode) + 1

theorem changesCode_inj : Function.Injective changesCode := by
  intro a b h
  cases a <;> cases b <;> simp [changesCode] at h ⊢
  exact List.map_injective_iff.mpr kvCode_inj (listCode_inj _ _ h)

/-! ## Audit data model

Modelled from the spec (section 3): the audit subsystem's implementation is
not part of the source corpus, so the data model follows the spec's words
and the audit-logging documentation. -/

/-- Modelled from the spec: the AuditEvent shape accepted by the Recorder.
`actor` is an identifier plus kind, `target` is optional, `changes` an
optional ordered mapping of field name to new value; `ipAddress`, `apiUrl`
and `eventId` are optional. -/
structure AuditEvent where
  actorId : String
  actorKind : String
  action : String
  targetId : Option String
  targetKind : Option String
  organizationId : String
  status : String
  changes : Option (List (String × String))
  ipAddress : Option String
  apiUrl : Option String
  eventId : Option String
deriving DecidableEq

/-- Modelled from the spec: the content of a persisted entry, an AuditEvent
together with the Recorder-assigned timestamp. -/
structure EntryContent where
  event : AuditEvent
  timestamp : String
deriving DecidableEq

/-- Injective code of the fields of an AuditEvent. -/
def eventFields (e : AuditEvent) : List Nat :=
  [strCode e.actorId, strCode e.actorKind, strCode e.action,
   optStrCode e.targetId, optStrCode e.targetKind,
   strCode e.organizationId, strCode e.status, changesCode e.changes,
   optStrCode e.ipAddress, optStrCode e.apiUrl, optStrCode e.eventId]

/-- Injective code of the canonically serialized entry content. -/
def contentCode (c : EntryContent) : Nat :=
  Nat.pair (listCode (eventFields c.event)) (strCode c.timestamp)

theorem eventFields_inj (e₁ e₂ : AuditEvent) (h : eventFields e₁ = eventFields e₂) : e₁ = e₂ := by
  cases e₁
  cases e₂
  simp only [eventFields, List.cons.injEq, and_true] at h
  obtain ⟨h1, h2, h3, h4, h5, h6, h7, h8, h9, h10, h11⟩ := h
  simp only [AuditEvent.mk.injEq]
  exact ⟨strCode_inj h1, strCode_inj h2, strCode_inj h3, optStrCode_inj h4,
    optStrCode_inj h5, strCode_inj h6, strCode_inj h7, changesCode_inj h8,
    optStrCode_inj h9, optStrCode_inj h10, optStrCode_inj h11⟩

theorem contentCode_inj : Function.Injective contentCode := by
  intro c₁ c₂ h
  obtain ⟨h1, h2⟩ := Nat.pair_eq_pair.mp h
  cases c₁
  cases c₂
  simp only [EntryContent.mk.injEq]
  exact ⟨eventFields_inj _ _ (listCode_inj _ _ h1), strCode_inj h2⟩

/-! ## Redactor

Modelled from the spec (section 4.1): given a mapping of changed fields,
keys case-insensitively matching the sensitive-field name set are replaced
by a fixed marker string; all other pairs pass through; a missing input
yields an empty output. -/

/-- Modelled from the spec: the fixed redaction marker string. -/
def REDACTION_MARKER : String := "********"

/-- Modelled from the spec: the configured sensitive-field name set. -/
def SENSITIVE_FIELDS : List String := ["email", "password", "token", "secret", "key"]

/-- Lower-casing of a string, character by character. -/
def lowerString (s : String) : String := String.mk (s.data.map Char.toLower)

/-- Modelled from the spec: case-insensitive membership in the
sensitive-field name set. -/
def isSensitiveKey (k : String) : Bool := SENSITIVE_FIELDS.contains (lowerString k)

/-- Modelled from the spec: redaction of a single key/value pair. -/
def redactPair (kv : String × String) : String × String :=
  if isSensitiveKey kv.1 then (kv.1, REDACTION_MARKER) else kv

/-- Modelled from the spec: redaction of an ordered mapping of changed
fields. -/
def redactList (l : List (String × String)) : List (String × String) :=
  l.map redactPair

/-- Modelled from the spec: the Redactor entry point; a missing input
yields an empty output. -/
def redact : Option (List (String × String)) → List (String × String)
  | none => []
  | some l => redactList l

/-- C4: the Redactor is a pure function on a changes mapping: keys that
case-insensitively match the sensitive-field set (which contains email,
password, token, secret, key) get the fixed marker as value, all other
pairs pass through unchanged, key order is preserved, and a missing or
empty input yields an empty output. -/
theorem c4_redactor_contract :
    redact none = [] ∧
    redact (some []) = [] ∧
    (∀ (l : List (String × String)) (i : Nat),
      (redact (some l))[i]? = (l[i]?).map redactPair) ∧
    (∀ k v, isSensitiveKey k = true → redactPair (k, v) = (k, REDACTION_MARKER)) ∧
    (∀ k v, isSensitiveKey k = false → redactPair (k, v) = (k, v)) ∧
    (∀ l, (redact (some l)).map Prod.fst = l.map Prod.fst) ∧
    (∀ k, isSensitiveKey k = true ↔
      lowerString k ∈ ["email", "password", "token", "secret", "key"]) := by
  refine ⟨rfl, rfl, ?_, ?_, ?_, ?_, ?_⟩
  · intro l i
    simp [redact, redactList]
  · intro k v h
    simp [redactPair, h]
  · intro k v h
    simp [redactPair, h]
  · intro l
    simp only [redact, redactList, List.map_map]
    refine List.map_congr_left ?_
    intro kv _
    by_cases h : isSensitiveKey kv.1 <;> simp [redactPair, h]
  · intro k
    simp [isSensitiveKey, SENSITIVE_FIELDS]

/-- C4 witness: the contract evaluated at concrete inputs. -/
theorem c4_redactor_contract_witness :
    redactPair ("Email", "a@b.c") = ("Email", "********") ∧
    redactPair ("url", "https://x") = ("url", "https://x") ∧
    (redact (some [("TOKEN", "t"), ("name", "demo")]))[0]? =
      some ("TOKEN", "********") := by
  refine ⟨?_, ?_, ?_⟩
  · exact c4_redactor_contract.2.2.2.1 "Email" "a@b.c" (by decide)
  · exact c4_redactor_contract.2.2.2.2.1 "url" "https://x" (by decide)
  · rw [c4_redactor_contract.2.2.1 [("TOKEN", "t"), ("name", "demo")] 0]
    decide

/-! ## Hash chain

Modelled from the spec (sections 3, 4.3, 4.4): the canonical serialization
of an entry's content (all fields except the integrity hash) together with
the previous hash is fed to a collision-resistant 256-bit hash.  Collision
resistance is idealized as injectivity; the hash is realized by the Cantor
pairing function shifted by one so that it never collides with the
chain-start sentinel. -/

/-- Modelled from the spec: the defined chain-start sentinel value for
`previousHash`. -/
def sentinel : Nat := 0

/-- Modelled from the spec: canonical serialization of an entry's content
(including the chain-start flag) as a single natural number. -/
def canonical (c : EntryContent) (chainStart : Bool) : Nat :=
  Nat.pair (contentCode c) (if chainStart then 1 else 0)

/-- Modelled from the spec: the collision-resistant integrity hash over the
canonical serialization and the previous hash, idealized as an injective
function. -/
def hashFn (canon : Nat) (prev : Nat) : Nat := Nat.pair canon prev + 1

theorem hashFn_inj (c₁ c₂ p₁ p₂ : Nat) (h : hashFn c₁ p₁ = hashFn c₂ p₂) :
    c₁ = c₂ ∧ p₁ = p₂ := by
  simp only [hashFn, Nat.add_right_cancel_iff] at h
  exact Nat.pair_eq_pair.mp h

theorem hashFn_gt_prev (c p : Nat) : p < hashFn c p :=
  Nat.lt_succ_of_le (Nat.right_le_pair c p)

theorem hashFn_ne_sentinel (c p : Nat) : hashFn c p ≠ sentinel := by
  simp [hashFn, sentinel]

theorem canonical_inj (c₁ c₂ : EntryContent) (b₁ b₂ : Bool)
    (h : canonical c₁ b₁ = canonical c₂ b₂) : c₁ = c₂ ∧ b₁ = b₂ := by
  obtain ⟨h1, h2⟩ := Nat.pair_eq_pair.mp h
  refine ⟨contentCode_inj h1, ?_⟩
  cases b₁ <;> cases b₂ <;> simp_all

/-- Modelled from the spec: the persisted AuditLogEntry, the entry content
plus the chain fields. -/
structure AuditLogEntry where
  content : EntryContent
  chainStart : Bool
  previousHash : Nat
  integrityHash : Nat
deriving DecidableEq

/-- Integrity-hash check of a single entry: the stored hash equals the hash
of the entry's canonical content together with its previous hash. -/
def entryHashOk (e : AuditLogEntry) : Bool :=
  e.integrityHash == hashFn (canonical e.content e.chainStart) e.previousHash

/-- Modelled from the spec: the chain head of a stored sequence, the
integrity hash of the most recently appended entry, or the sentinel for an
empty chain. -/
def chainHead (l : List AuditLogEntry) : Nat :=
  l.foldl (fun _ e => e.integrityHash) sentinel

/-- Modelled from the spec: construction of a fresh entry from redacted
content and the current chain head. -/
def mkEntry (c : EntryContent) (prev : Nat) : AuditLogEntry :=
  { content := c
    chainStart := prev == sentinel
    previousHash := prev
    integrityHash := hashFn (canonical c (prev == sentinel)) prev }

/-- Modelled from the spec: redaction of an AuditEvent's changes before
hashing and storage. -/
def redactEvent (e : AuditEvent) : AuditEvent :=
  { e with changes := e.changes.map redactList }

/-- Modelled from the spec: a strictly sequential `record` call — redact the
event, read the chain head, hash, and append the entry to the store. -/
def record (chain : List AuditLogEntry) (e : AuditEvent) (ts : String) :
    List AuditLogEntry :=
  chain ++ [mkEntry ⟨redactEvent e, ts⟩ (chainHead chain)]

/-- Strictly sequential `record` calls for a list of events with their
Recorder-assigned timestamps. -/
def recordAll (chain : List AuditLogEntry) :
    List (AuditEvent × String) → List AuditLogEntry
  | [] => chain
  | (e, ts) :: rest => recordAll (record chain e ts) rest

/-- Modelled from the spec: the reason attached to a verification break. -/
inductive BreakReason where
  | hash_mismatch
  | link_mismatch
  | missing_chain_start
deriving DecidableEq

/-- Modelled from the spec: the Verifier's result, either Valid or the
first point of divergence with its index and reason. -/
inductive VerificationResult where
  | Valid
  | Broken (atIndex : Nat) (reason : BreakReason)
deriving DecidableEq

/-- Modelled from the spec: the Verifier's walk over the non-first entries;
for each entry it first asserts the link to the previous integrity hash and
then the entry's own integrity hash. -/
def verifyFrom (i : Nat) (prev : Nat) : List AuditLogEntry → VerificationResult
  | [] => .Valid
  | e :: rest =>
    if e.previousHash ≠ prev then .Broken i .link_mismatch
    else if ¬ entryHashOk e then .Broken i .hash_mismatch
    else verifyFrom (i + 1) e.integrityHash rest

/-- Modelled from the spec: the Verifier — entry 0 must be a chain start
with the sentinel as previous hash and a correct integrity hash; later
entries are checked by the walk. -/
def verify : List AuditLogEntry → VerificationResult
  | [] => .Valid
  | e :: rest =>
    if ¬ (e.chainStart = true ∧ e.previousHash = sentinel) then
      .Broken 0 .missing_chain_start
    else if ¬ entryHashOk e then .Broken 0 .hash_mismatch
    else verifyFrom 1 e.integrityHash rest

/-! ## Validity of sequentially recorded chains (C1) -/

/-- Chain head of a sequence continuing from a given previous hash. -/
def headFrom (prev : Nat) (l : List AuditLogEntry) : Nat :=
  l.foldl (fun _ e => e.integrityHash) prev

theorem verifyFrom_append_valid :
    ∀ (l : List AuditLogEntry) (i prev : Nat) (e : AuditLogEntry),
      verifyFrom i prev l = .Valid → e.previousHash = headFrom prev l →
      entryHashOk e = true → verifyFrom i prev (l ++ [e]) = .Valid
  | [], i, prev, e, _, hprev, hok => by
    simp only [headFrom, List.foldl_nil] at hprev
    simp [verifyFrom, hprev, hok]
  | x :: l, i, prev, e, hvalid, hprev, hok => by
    rw [List.cons_append]
    simp only [verifyFrom] at hvalid ⊢
    split at hvalid
    · exact absurd hvalid (by simp)
    split at hvalid
    · exact absurd hvalid (by simp)
    next h1 h2 =>
    rw [if_neg h1, if_neg h2]
    exact verifyFrom_append_valid l (i + 1) x.integrityHash e hvalid hprev hok

theorem verify_append_valid (l : List AuditLogEntry) (e : AuditLogEntry)
    (hvalid : verify l = .Valid) (hprev : e.previousHash = chainHead l)
    (hok : entryHashOk e = true)
    (hstart : l = [] → e.chainStart = true ∧ e.previousHash = sentinel) :
    verify (l ++ [e]) = .Valid := by
  cases l with
  | nil =>
    obtain ⟨h1, h2⟩ := hstart rfl
    simp [verify, h1, h2, hok, verifyFrom]
  | cons x rest =>
    rw [List.cons_append]
    simp only [verify] at hvalid ⊢
    split at hvalid
    · exact absurd hvalid (by simp)
    split at hvalid
    · exact absurd hvalid (by simp)
    next h1 h2 =>
    rw [if_neg h1, if_neg h2]
    exact verifyFrom_append_valid rest 1 x.integrityHash e hvalid hprev hok

theorem entryHashOk_mkEntry (c : EntryContent) (prev : Nat) :
    entryHashOk (mkEntry c prev) = true := by
  simp [entryHashOk, mkEntry]

theorem verify_record (chain : List AuditLogEntry) (e : AuditEvent) (ts : String)
    (h : verify chain = .Valid) : verify (record chain e ts) = .Valid := by
  refine verify_append_valid chain _ h rfl (entryHashOk_mkEntry _ _) ?_
  intro hnil
  subst hnil
  exact ⟨by simp [mkEntry, chainHead], rfl⟩

theorem recordAll_valid :
    ∀ (evs : List (AuditEvent × String)) (chain : List AuditLogEntry),
      verify chain = .Valid → verify (recordAll chain evs) = .Valid
  | [], _, h => h
  | (e, ts) :: rest, chain, h =>
    recordAll_valid rest (record chain e ts) (verify_record chain e ts h)

/-- C1: for every chain of AuditLogEntry values produced by strictly
sequential calls to `record` starting from an empty chain, `verify`
returns Valid. -/
theorem c1_sequential_chain_verifies (evs : List (AuditEvent × String)) :
    verify (recordAll [] evs) = .Valid :=
  recordAll_valid evs [] rfl

/-! ## First and second recorded entries (C6) -/

theorem redactList_id (l : List (String × String))
    (h : ∀ kv ∈ l, isSensitiveKey kv.1 = false) : redactList l = l := by
  simp only [redactList]
  conv_rhs => rw [← List.map_id l]
  refine List.map_congr_left ?_
  intro kv hkv
  simp [redactPair, h kv hkv]

/-- C6: recording the first event on an empty chain yields an entry with
chainStart true, the sentinel as previous hash, and unchanged changes when
no sensitive keys are present; recording a second event on the same chain
yields an entry with chainStart false and previous hash equal to the first
entry's integrity hash. -/
theorem c6_first_and_second_record (e1 e2 : AuditEvent) (ts1 ts2 : String)
    (hclean : ∀ kv ∈ e1.changes.getD [], isSensitiveKey kv.1 = false) :
    ∃ n1 n2 : AuditLogEntry,
      record [] e1 ts1 = [n1] ∧
      record (record [] e1 ts1) e2 ts2 = [n1, n2] ∧
      n1.chainStart = true ∧
      n1.previousHash = sentinel ∧
      n1.content.event.changes = e1.changes ∧
      n2.chainStart = false ∧
      n2.previousHash = n1.integrityHash := by
  refine ⟨mkEntry ⟨redactEvent e1, ts1⟩ sentinel,
    mkEntry ⟨redactEvent e2, ts2⟩
      (mkEntry ⟨redactEvent e1, ts1⟩ sentinel).integrityHash,
    rfl, rfl, rfl, rfl, ?_, ?_, rfl⟩
  · cases hch : e1.changes with
    | none => simp [redactEvent, hch, mkEntry]
    | some l =>
      have hl : ∀ kv ∈ l, isSensitiveKey kv.1 = false := by
        intro kv hkv
        exact hclean kv (by simp [hch, hkv])
      simp [redactEvent, hch, redactList_id l hl, mkEntry]
  · simp [mkEntry, hashFn, sentinel]

/-- C6 witness: the scenario evaluated on two concrete events. -/
theorem c6_first_and_second_record_witness :
    ∃ n1 n2 : AuditLogEntry,
      record []
        ⟨"u1", "user", "webhook.created", some "w1", some "webhook", "o1",
          "success", some [("url", "https://x"), ("name", "demo")],
          none, none, none⟩ "t1" = [n1] ∧
      record
        (record []
          ⟨"u1", "user", "webhook.created", some "w1", some "webhook", "o1",
            "success", some [("url", "https://x"), ("name", "demo")],
            none, none, none⟩ "t1")
        ⟨"u2", "user", "webhook.updated", some "w1", some "webhook", "o1",
          "success", none, none, none, none⟩ "t2" = [n1, n2] ∧
      n1.chainStart = true ∧
      n1.previousHash = sentinel ∧
      n1.content.event.changes = some [("url", "https://x"), ("name", "demo")] ∧
      n2.chainStart = false ∧
      n2.previousHash = n1.integrityHash :=
  c6_first_and_second_record
    ⟨"u1", "user", "webhook.created", some "w1", some "webhook", "o1",
      "success", some [("url", "https://x"), ("name", "demo")],
      none, none, none⟩
    ⟨"u2", "user", "webhook.updated", some "w1", some "webhook", "o1",
      "success", none, none, none, none⟩
    "t1" "t2" (by decide)

/-! ## Tamper detection (C2) -/

theorem verifyFrom_cons_valid (x : AuditLogEntry) (rest : List AuditLogEntry)
    (j prev : Nat) (h : verifyFrom j prev (x :: rest) = .Valid) :
    x.previousHash = prev ∧ entryHashOk x = true ∧
      verifyFrom (j + 1) x.integrityHash rest = .Valid := by
  simp only [verifyFrom] at h
  split at h
  · exact absurd h (by simp)
  split at h
  · exact absurd h (by simp)
  next h1 h2 =>
  exact ⟨not_ne_iff.mp h1, not_not.mp h2, h⟩

theorem verify_cons_valid (x : AuditLogEntry) (rest : List AuditLogEntry)
    (h : verify (x :: rest) = .Valid) :
    (x.chainStart = true ∧ x.previousHash = sentinel) ∧ entryHashOk x = true ∧
      verifyFrom 1 x.integrityHash rest = .Valid := by
  simp only [verify] at h
  split at h
  · exact absurd h (by simp)
  split at h
  · exact absurd h (by simp)
  next h1 h2 =>
  exact ⟨not_not.mp h1, not_not.mp h2, h⟩

theorem verifyFrom_get_hashOk :
    ∀ (l : List AuditLogEntry) (j prev : Nat),
      verifyFrom j prev l = .Valid →
      ∀ (i : Nat) (h : i < l.length), entryHashOk (l.get ⟨i, h⟩) = true
  | [], _, _, _, i, h => absurd h (by simp)
  | x :: rest, j, prev, hvalid, 0, _ =>
    (verifyFrom_cons_valid x rest j prev hvalid).2.1
  | x :: rest, j, prev, hvalid, i + 1, h =>
    verifyFrom_get_hashOk rest (j + 1) x.integrityHash
      (verifyFrom_cons_valid x rest j prev hvalid).2.2 i
      (Nat.lt_of_succ_lt_succ h)

theorem verify_get_hashOk (l : List AuditLogEntry) (hvalid : verify l = .Valid)
    (i : Nat) (h : i < l.length) : entryHashOk (l.get ⟨i, h⟩) = true := by
  cases l with
  | nil => exact absurd h (by simp)
  | cons x rest =>
    obtain ⟨_, hok, hrest⟩ := verify_cons_valid x rest hvalid
    cases i with
    | zero => exact hok
    | succ i =>
      exact verifyFrom_get_hashOk rest 1 x.integrityHash hrest i
        (Nat.lt_of_succ_lt_succ h)

theorem verifyFrom_get_prevHash_zero (l : List AuditLogEntry) (j prev : Nat)
    (hvalid : verifyFrom j prev l = .Valid) (h : 0 < l.length) :
    (l.get ⟨0, h⟩).previousHash = prev := by
  cases l with
  | nil => exact absurd h (by simp)
  | cons x rest => exact (verifyFrom_cons_valid x rest j prev hvalid).1

theorem verifyFrom_get_prevHash_succ :
    ∀ (l : List AuditLogEntry) (j prev : Nat),
      verifyFrom j prev l = .Valid →
      ∀ (i : Nat) (h : i + 1 < l.length),
        (l.get ⟨i + 1, h⟩).previousHash =
          (l.get ⟨i, Nat.lt_of_succ_lt h⟩).integrityHash
  | [], _, _, _, _, h => absurd h (by simp)
  | x :: rest, j, prev, hvalid, 0, h =>
    verifyFrom_get_prevHash_zero rest (j + 1) x.integrityHash
      (verifyFrom_cons_valid x rest j prev hvalid).2.2 (Nat.lt_of_succ_lt_succ h)
  | x :: rest, j, prev, hvalid, i + 1, h =>
    verifyFrom_get_prevHash_succ rest (j + 1) x.integrityHash
      (verifyFrom_cons_valid x rest j prev hvalid).2.2 i (Nat.lt_of_succ_lt_succ h)

theorem verify_get_prevHash (l : List AuditLogEntry) (hvalid : verify l = .Valid)
    (i : Nat) (h : i + 1 < l.length) :
    (l.get ⟨i + 1, h⟩).previousHash =
      (l.get ⟨i, Nat.lt_of_succ_lt h⟩).integrityHash := by
  cases l with
  | nil => exact absurd h (by simp)
  | cons x rest =>
    obtain ⟨_, _, hrest⟩ := verify_cons_valid x rest hvalid
    cases i with
    | zero =>
      exact verifyFrom_get_prevHash_zero rest 1 x.integrityHash hrest
        (Nat.lt_of_succ_lt_succ h)
    | succ i =>
      exact verifyFrom_get_prevHash_succ rest 1 x.integrityHash hrest i
        (Nat.lt_of_succ_lt_succ h)

theorem verifyFrom_set_hashbreak :
    ∀ (l : List AuditLogEntry) (i j prev : Nat) (e : AuditLogEntry),
      verifyFrom j prev l = .Valid → (h : i < l.length) →
      e.previousHash = (l.get ⟨i, h⟩).previousHash →
      entryHashOk e = false →
      verifyFrom j prev (l.set i e) = .Broken (j + i) .hash_mismatch
  | [], i, _, _, _, _, h, _, _ => absurd h (by simp)
  | x :: rest, 0, j, prev, e, hvalid, _, hprev, hbad => by
    obtain ⟨h1, _, _⟩ := verifyFrom_cons_valid x rest j prev hvalid
    simp only [List.set_cons_zero, verifyFrom]
    rw [if_neg (by simp [hprev, h1]), if_pos (by simp [hbad]), Nat.add_zero]
  | x :: rest, i + 1, j, prev, e, hvalid, h, hprev, hbad => by
    obtain ⟨h1, h2, h3⟩ := verifyFrom_cons_valid x rest j prev hvalid
    simp only [List.set_cons_succ, verifyFrom]
    rw [if_neg (by simp [h1]), if_neg (by simp [h2])]
    have hrec := verifyFrom_set_hashbreak rest i (j + 1) x.integrityHash e h3
      (Nat.lt_of_succ_lt_succ h) hprev hbad
    rw [hrec]
    congr 1
    omega

theorem verifyFrom_set_linkbreak :
    ∀ (l : List AuditLogEntry) (i j prev : Nat) (e : AuditLogEntry),
      verifyFrom j prev l = .Valid → (h : i < l.length) →
      e.previousHash ≠ (l.get ⟨i, h⟩).previousHash →
      verifyFrom j prev (l.set i e) = .Broken (j + i) .link_mismatch
  | [], i, _, _, _, _, h, _ => absurd h (by simp)
  | x :: rest, 0, j, prev, e, hvalid, _, hbad => by
    obtain ⟨h1, _, _⟩ := verifyFrom_cons_valid x rest j prev hvalid
    simp only [List.set_cons_zero, verifyFrom]
    rw [if_pos (by simpa [h1] using hbad), Nat.add_zero]
  | x :: rest, i + 1, j, prev, e, hvalid, h, hbad => by
    obtain ⟨h1, h2, h3⟩ := verifyFrom_cons_valid x rest j prev hvalid
    simp only [List.set_cons_succ, verifyFrom]
    rw [if_neg (by simp [h1]), if_neg (by simp [h2])]
    have hrec := verifyFrom_set_linkbreak rest i (j + 1) x.integrityHash e h3
      (Nat.lt_of_succ_lt_succ h) hbad
    rw [hrec]
    congr 1
    omega

theorem verify_set_hashbreak (l : List AuditLogEntry) (hvalid : verify l = .Valid)
    (i : Nat) (h : i < l.length) (e : AuditLogEntry)
    (hprev : e.previousHash = (l.get ⟨i, h⟩).previousHash)
    (hcs : e.chainStart = (l.get ⟨i, h⟩).chainStart)
    (hbad : entryHashOk e = false) :
    verify (l.set i e) = .Broken i .hash_mismatch := by
  cases l with
  | nil => exact absurd h (by simp)
  | cons x rest =>
    obtain ⟨hstart, hok, hrest⟩ := verify_cons_valid x rest hvalid
    cases i with
    | zero =>
      simp only [List.set_cons_zero, verify]
      rw [if_neg (by simp [hprev, hcs, hstart.1, hstart.2]),
        if_pos (by simp [hbad])]
    | succ i =>
      simp only [List.set_cons_succ, verify]
      rw [if_neg (by simp [hstart.1, hstart.2]), if_neg (by simp [hok])]
      have hrec := verifyFrom_set_hashbreak rest i 1 x.integrityHash e hrest
        (Nat.lt_of_succ_lt_succ h) hprev hbad
      rw [hrec]
      congr 1
      omega

theorem verify_set_linkbreak (l : List AuditLogEntry) (hvalid : verify l = .Valid)
    (i : Nat) (h : i + 1 < l.length) (e : AuditLogEntry)
    (hbad : e.previousHash ≠ (l.get ⟨i + 1, h⟩).previousHash) :
    verify (l.set (i + 1) e) = .Broken (i + 1) .link_mismatch := by
  cases l with
  | nil => exact absurd h (by simp)
  | cons x rest =>
    obtain ⟨hstart, hok, hrest⟩ := verify_cons_valid x rest hvalid
    simp only [List.set_cons_succ, verify]
    rw [if_neg (by simp [hstart.1, hstart.2]), if_neg (by simp [hok])]
    have hrec := verifyFrom_set_linkbreak rest i 1 x.integrityHash e hrest
      (Nat.lt_of_succ_lt_succ h) hbad
    rw [hrec]
    congr 1
    omega

theorem entryHashOk_content_change (orig : AuditLogEntry) (c : EntryContent)
    (hok : entryHashOk orig = true) (hne : c ≠ orig.content) :
    entryHashOk { orig with content := c } = false := by
  cases hbad : entryHashOk { orig with content := c } with
  | false => rfl
  | true =>
    exfalso
    simp only [entryHashOk, beq_iff_eq] at hok hbad
    rw [hok] at hbad
    exact hne ((canonical_inj _ _ _ _ (hashFn_inj _ _ _ _ hbad).1).1).symm

/-- C2: for every chain produced by sequential `record` calls, altering the
content of any single stored entry yields Broken at that entry's index with
reason hash_mismatch, and altering the previous hash of any non-first entry
to a value different from the prior entry's integrity hash yields Broken at
that index with reason link_mismatch; a single result, the first break, is
reported. -/
theorem c2_tamper_detection (evs : List (AuditEvent × String)) :
    (∀ (i : Nat) (h : i < (recordAll [] evs).length) (c : EntryContent),
      c ≠ ((recordAll [] evs).get ⟨i, h⟩).content →
      verify ((recordAll [] evs).set i
        { (recordAll [] evs).get ⟨i, h⟩ with content := c }) =
        .Broken i .hash_mismatch) ∧
    (∀ (i : Nat) (h : i + 1 < (recordAll [] evs).length) (p : Nat),
      p ≠ ((recordAll [] evs).get ⟨i, Nat.lt_of_succ_lt h⟩).integrityHash →
      verify ((recordAll [] evs).set (i + 1)
        { (recordAll [] evs).get ⟨i + 1, h⟩ with previousHash := p }) =
        .Broken (i + 1) .link_mismatch) := by
  have hvalid : verify (recordAll [] evs) = .Valid := recordAll_valid evs [] rfl
  constructor
  · intro i h c hne
    refine verify_set_hashbreak _ hvalid i h _ rfl rfl ?_
    exact entryHashOk_content_change _ c (verify_get_hashOk _ hvalid i h) hne
  · intro i h p hne
    have hgoal : p ≠ ((recordAll [] evs).get ⟨i + 1, h⟩).previousHash := by
      rw [verify_get_prevHash _ hvalid i h]
      exact hne
    exact verify_set_linkbreak _ hvalid i h _ hgoal

/-- C2 witness: tampering with a concrete two-entry chain. -/
theorem c2_tamper_detection_witness :
    verify ((recordAll []
        [(⟨"", "", "", none, none, "", "", none, none, none, none⟩, ""),
         (⟨"", "", "", none, none, "", "", none, none, none, none⟩, "")]).set 0
      { (recordAll []
        [(⟨"", "", "", none, none, "", "", none, none, none, none⟩, ""),
         (⟨"", "", "", none, none, "", "", none, none, none, none⟩, "")]).get
          ⟨0, by decide⟩ with
        content := ⟨⟨"x", "", "", none, none, "", "", none, none, none, none⟩, ""⟩ }) =
      .Broken 0 .hash_mismatch ∧
    verify ((recordAll []
        [(⟨"", "", "", none, none, "", "", none, none, none, none⟩, ""),
         (⟨"", "", "", none, none, "", "", none, none, none, none⟩, "")]).set 1
      { (recordAll []
        [(⟨"", "", "", none, none, "", "", none, none, none, none⟩, ""),
         (⟨"", "", "", none, none, "", "", none, none, none, none⟩, "")]).get
          ⟨1, by decide⟩ with previousHash := 0 }) =
      .Broken 1 .link_mismatch := by
  constructor
  · exact (c2_tamper_detection _).1 0 (by decide) _ (by decide)
  · exact (c2_tamper_detection _).2 0 (by decide) 0 (by decide)

/-! ## Chain-Head Tracker and concurrent recording (C3)

Modelled from the spec (sections 4.2 and 5): the chain head is the sole
piece of mutable shared state, updated through an atomic compare-and-swap;
concurrent `record` calls are modelled as an interleaving of head reads and
compare-and-swap attempts by a set of writers. -/

/-- Modelled from the spec: the Chain-Head Tracker's advance operation.
Given the stored head, the caller's assumed previous head and the new head,
it returns a success flag (false means ChainConflict) and the resulting
stored head; the stored head is replaced if and only if the assumed head
matches it, and a failed call has no effect. -/
def advance (stored assumed newHead : Nat) : Bool × Nat :=
  if assumed = stored then (true, newHead) else (false, stored)

/-- Phase of a concurrent writer: not yet holding a head snapshot, holding
an assumed head, or finished. -/
inductive WriterPhase where
  | idle
  | ready (assumed : Nat)
  | done
deriving DecidableEq

/-- A concurrent writer: the redacted content it wants to append and its
current phase. -/
structure Writer where
  content : EntryContent
  phase : WriterPhase
deriving DecidableEq

/-- Shared system state: the stored chain head, the append-only log store,
and the writers. -/
structure SysState where
  head : Nat
  log : List AuditLogEntry
  writers : List Writer
deriving DecidableEq

/-- A writer reads the current head. -/
def readStep (s : SysState) (i : Nat) (h : i < s.writers.length) : SysState :=
  { s with
    writers := s.writers.set i { s.writers[i] with phase := .ready s.head } }

/-- A writer attempts to append via compare-and-swap on the head: on
success the entry is appended and the head advanced; on ChainConflict the
writer goes back to re-read the head, with no effect on head or log. -/
def casStep (s : SysState) (i : Nat) (h : i < s.writers.length) (a : Nat) :
    SysState :=
  let w := s.writers[i]
  let entry := mkEntry w.content a
  let res := advance s.head a entry.integrityHash
  if res.1 then
    { head := res.2, log := s.log ++ [entry],
      writers := s.writers.set i { w with phase := .done } }
  else
    { s with writers := s.writers.set i { w with phase := .idle } }

/-- Interleaving semantics: at any moment some idle writer may read the
head, or some ready writer may attempt its compare-and-swap. -/
inductive Step : SysState → SysState → Prop where
  | read (s : SysState) (i : Nat) (h : i < s.writers.length)
      (hidle : s.writers[i].phase = .idle) :
      Step s (readStep s i h)
  | cas (s : SysState) (i : Nat) (h : i < s.writers.length) (a : Nat)
      (hready : s.writers[i].phase = .ready a) :
      Step s (casStep s i h a)

/-- Number of writers that have finished. -/
def doneCount (ws : List Writer) : Nat :=
  ws.countP (fun w => w.phase == WriterPhase.done)

/-- Invariant of the concurrent system: the stored head is the chain head
of the log, the log verifies, previous hashes are strictly increasing along
the log and dominated by the head, and the log has grown by exactly the
number of finished writers. -/
structure Inv (n0 : Nat) (s : SysState) : Prop where
  headEq : s.head = chainHead s.log
  valid : verify s.log = .Valid
  incr : (s.log.map AuditLogEntry.previousHash).Pairwise (· < ·)
  dom : ∀ e ∈ s.log, e.previousHash < s.head
  count : s.log.length = n0 + doneCount s.writers

theorem countP_set_of_eq (p : Writer → Bool) :
    ∀ (l : List Writer) (i : Nat) (h : i < l.length) (w : Writer),
      p w = p l[i] → (l.set i w).countP p = l.countP p
  | [], i, h, _, _ => absurd h (by simp)
  | x :: rest, 0, _, w, hp => by
    have hx : p w = p x := hp
    simp [List.countP_cons, hx]
  | x :: rest, i + 1, h, w, hp => by
    simp only [List.set_cons_succ, List.countP_cons]
    rw [countP_set_of_eq p rest i (Nat.lt_of_succ_lt_succ h) w hp]

theorem countP_set_incr (p : Writer → Bool) :
    ∀ (l : List Writer) (i : Nat) (h : i < l.length) (w : Writer),
      p l[i] = false → p w = true →
      (l.set i w).countP p = l.countP p + 1
  | [], i, h, _, _, _ => absurd h (by simp)
  | x :: rest, 0, _, w, hold, hnew => by
    have hx : p x = false := hold
    simp [List.countP_cons, hx, hnew]
  | x :: rest, i + 1, h, w, hold, hnew => by
    simp only [List.set_cons_succ, List.countP_cons]
    rw [countP_set_incr p rest i (Nat.lt_of_succ_lt_succ h) w hold hnew]
    omega

theorem chainHead_append (l : List AuditLogEntry) (e : AuditLogEntry) :
    chainHead (l ++ [e]) = e.integrityHash := by
  simp [chainHead, List.foldl_append]

theorem length_writers_step {s t : SysState} (hstep : Step s t) :
    t.writers.length = s.writers.length := by
  cases hstep with
  | read i h hidle => simp [readStep]
  | cas i h a hready =>
    simp only [casStep, advance]
    split <;> simp

theorem inv_step {n0 : Nat} {s t : SysState} (hinv : Inv n0 s)
    (hstep : Step s t) : Inv n0 t := by
  cases hstep with
  | read i h hidle =>
    refine ⟨hinv.headEq, hinv.valid, hinv.incr, hinv.dom, ?_⟩
    have hcnt : doneCount (readStep s i h).writers = doneCount s.writers := by
      simp only [readStep, doneCount]
      exact countP_set_of_eq _ s.writers i h _ (by simp [hidle])
    rw [hcnt]
    exact hinv.count
  | cas i h a hready =>
    by_cases hc : a = s.head
    · have hentry : casStep s i h a =
          { head := (mkEntry s.writers[i].content a).integrityHash,
            log := s.log ++ [mkEntry s.writers[i].content a],
            writers := s.writers.set i
              { s.writers[i] with phase := .done } } := by
        simp [casStep, advance, hc]
      rw [hentry]
      have hprev : (mkEntry s.writers[i].content a).previousHash =
          chainHead s.log := by
        simp [mkEntry, hc, hinv.headEq]
      refine ⟨?_, ?_, ?_, ?_, ?_⟩
      · exact (chainHead_append _ _).symm
      · refine verify_append_valid _ _ hinv.valid hprev (entryHashOk_mkEntry _ _) ?_
        intro hnil
        have hsen : a = sentinel := by
          rw [hc, hinv.headEq, hnil]
          rfl
        constructor
        · simp [mkEntry, hsen]
        · simp [mkEntry, hsen]
      · rw [List.map_append, List.pairwise_append]
        refine ⟨hinv.incr, by simp, ?_⟩
        intro x hx y hy
        simp only [List.map_cons, List.map_nil, List.mem_singleton] at hy
        simp only [List.mem_map] at hx
        obtain ⟨e, he, hex⟩ := hx
        subst hex
        have hdome := hinv.dom e he
        have hya : y = a := by simpa [mkEntry] using hy
        rw [hya, hc]
        exact hdome
      · intro e he
        simp only [List.mem_append, List.mem_singleton] at he
        have hgt : s.head < (mkEntry s.writers[i].content a).integrityHash := by
          simp only [mkEntry]
          rw [hc]
          exact hashFn_gt_prev _ _
        rcases he with he | he
        · exact lt_trans (hinv.dom e he) hgt
        · subst he
          simp only [mkEntry]
          rw [hc]
          exact hashFn_gt_prev _ _
      · simp only [List.length_append, List.length_cons, List.length_nil]
        have hcnt : doneCount (s.writers.set i
            { s.writers[i] with phase := .done }) =
            doneCount s.writers + 1 := by
          simp only [doneCount]
          exact countP_set_incr _ s.writers i h _ (by simp [hready]) (by simp)
        rw [hcnt]
        have hc0 := hinv.count
        omega
    · have hfail : casStep s i h a =
          { s with writers :=
              s.writers.set i ({ s.writers[i] with phase := .idle }) } := by
        simp [casStep, advance, hc]
      rw [hfail]
      refine ⟨hinv.headEq, hinv.valid, hinv.incr, hinv.dom, ?_⟩
      have hcnt : doneCount (s.writers.set i
          ({ s.writers[i] with phase := .idle })) = doneCount s.writers := by
        simp only [doneCount]
        exact countP_set_of_eq _ s.writers i h _ (by simp [hready])
      rw [hcnt]
      exact hinv.count

theorem inv_trace {n0 : Nat} {s t : SysState}
    (htrace : Relation.ReflTransGen Step s t) (hinv : Inv n0 s) : Inv n0 t := by
  induction htrace with
  | refl => exact hinv
  | tail _ hstep ih => exact inv_step ih hstep

theorem length_writers_trace {s t : SysState}
    (htrace : Relation.ReflTransGen Step s t) :
    t.writers.length = s.writers.length := by
  induction htrace with
  | refl => rfl
  | tail _ hstep ih => rw [length_writers_step hstep, ih]

/-- C3: the Chain-Head Tracker's advance has compare-and-swap semantics —
it replaces the stored head if and only if the caller's assumed previous
head equals the stored head, and otherwise fails (ChainConflict) without
effect; consequently, every complete interleaved execution of N concurrent
record calls against the same chain head appends exactly N entries forming
one unbroken linear chain with no forks: no two entries share the same
previousHash. -/
theorem c3_cas_and_linear_chain :
    (∀ stored assumed newHead : Nat,
      (assumed = stored → advance stored assumed newHead = (true, newHead)) ∧
      (assumed ≠ stored → advance stored assumed newHead = (false, stored))) ∧
    (∀ (n0 : Nat) (s t : SysState),
      Inv n0 s →
      Relation.ReflTransGen Step s t →
      (∀ w ∈ s.writers, w.phase = .idle) →
      (∀ w ∈ t.writers, w.phase = .done) →
      t.log.length = s.log.length + s.writers.length ∧
      verify t.log = .Valid ∧
      (t.log.map AuditLogEntry.previousHash).Pairwise (· ≠ ·)) := by
  constructor
  · intro stored assumed newHead
    constructor
    · intro hmatch
      simp [advance, hmatch]
    · intro hmiss
      simp [advance, hmiss]
  · intro n0 s t hinv htrace hidle hdone
    have hinvt := inv_trace htrace hinv
    have hlen := length_writers_trace htrace
    have hcnt0 : doneCount s.writers = 0 := by
      simp only [doneCount]
      rw [List.countP_eq_zero]
      intro w hw
      simp [hidle w hw]
    have hcntt : doneCount t.writers = t.writers.length := by
      simp only [doneCount]
      rw [List.countP_eq_length]
      intro w hw
      simp [hdone w hw]
    refine ⟨?_, hinvt.valid, hinvt.incr.imp fun hab => Nat.ne_of_lt hab⟩
    have h1 := hinv.count
    have h2 := hinvt.count
    omega

/-- Sample writer for the concurrency witness. -/
def sampleWriter : Writer :=
  ⟨⟨⟨"", "", "", none, none, "", "", none, none, none, none⟩, ""⟩, .idle⟩

/-- Initial state of the concurrency witness: empty log, sentinel head, one
idle writer. -/
def sInit : SysState := ⟨sentinel, [], [sampleWriter]⟩

/-- State after the writer reads the head. -/
def sRead : SysState := readStep sInit 0 (by decide)

/-- State after the writer's successful compare-and-swap. -/
def sDone : SysState := casStep sRead 0 (by decide) sentinel

/-- C3 witness: a concrete complete run of one writer. -/
theorem c3_cas_and_linear_chain_witness :
    advance 5 5 9 = (true, 9) ∧
    advance 5 7 9 = (false, 5) ∧
    (sDone.log.length = sInit.log.length + sInit.writers.length ∧
      verify sDone.log = .Valid ∧
      (sDone.log.map AuditLogEntry.previousHash).Pairwise (· ≠ ·)) := by
  refine ⟨(c3_cas_and_linear_chain.1 5 5 9).1 rfl,
    (c3_cas_and_linear_chain.1 5 7 9).2 (by decide), ?_⟩
  refine c3_cas_and_linear_chain.2 0 sInit sDone
    ⟨rfl, rfl, by simp [sInit], by simp [sInit], by decide⟩ ?_ (by decide) (by decide)
  exact Relation.ReflTransGen.tail
    (Relation.ReflTransGen.tail Relation.ReflTransGen.refl
      (Step.read sInit 0 (by decide) (by decide)))
    (Step.cas sRead 0 (by decide) sentinel (by decide))

/-! ## Audit failures never fail the audited operation (C5)

Modelled from the spec (sections 4.3 and 7): `record` can fail internally
(conflicts beyond the retry bound, store append failure, sink failure) but
never raises to its caller; the business operation is never failed or
rolled back because of an audit failure. -/

/-- Modelled from the spec: the Recorder's error taxonomy. -/
inductive RecordError where
  | chainConflictExhausted
  | chainCorruption
  | recordDeliveryFailure
deriving DecidableEq

/-- Modelled from the spec: injected failure behavior of the audit
subsystem's collaborators — the outcomes of successive compare-and-swap
attempts, of the durable append, and of the sink emission. -/
structure AuditOracle where
  casResults : List Bool
  appendOk : Bool
  sinkOk : Bool

/-- Modelled from the spec: the bounded retry count of the Recorder. -/
def MAX_RECORD_ATTEMPTS : Nat := 3

/-- Whether one of the first n compare-and-swap attempts succeeds. -/
def firstSuccessWithin : Nat → List Bool → Bool
  | 0, _ => false
  | _ + 1, [] => false
  | n + 1, b :: rest => b || firstSuccessWithin n rest

/-- Modelled from the spec: the fallible core of `record` — bounded retries
against head conflicts, then durable append, then sink emission; each
failure mode surfaces as its own RecordError. -/
def recordCore (o : AuditOracle) (chain : List AuditLogEntry) (e : AuditEvent)
    (ts : String) : Except RecordError (List AuditLogEntry) :=
  if ¬ firstSuccessWithin MAX_RECORD_ATTEMPTS o.casResults then
    .error .chainConflictExhausted
  else if ¬ o.appendOk then .error .chainCorruption
  else if ¬ o.sinkOk then .error .recordDeliveryFailure
  else .ok (record chain e ts)

/-- Modelled from the spec: the caller-facing `record` — every RecordError
is logged and swallowed, never raised to the caller. -/
def recordAndSwallow (o : AuditOracle) (chain : List AuditLogEntry)
    (e : AuditEvent) (ts : String) : Option (List AuditLogEntry) :=
  (recordCore o chain e ts).toOption

/-- A business operation audited fire-and-forget: the operation runs, its
audit event is recorded, and only the business result is returned. -/
def runWithAudit {α β : Type} (o : AuditOracle) (chain : List AuditLogEntry)
    (op : α → β × AuditEvent) (x : α) (ts : String) : β :=
  let r := op x
  let _audit := recordAndSwallow o chain r.2 ts
  r.1

/-- C5: for every AuditEvent and every failure of the audit subsystem
(conflict exhaustion, store failure, sink failure), the caller-facing
record swallows the error instead of raising it, and the business
operation's result is never affected by the audit outcome. -/
theorem c5_record_never_raises :
    (∀ (o : AuditOracle) (chain : List AuditLogEntry) (e : AuditEvent)
      (ts : String) (err : RecordError),
      recordCore o chain e ts = .error err →
      recordAndSwallow o chain e ts = none) ∧
    (∀ {α β : Type} (o : AuditOracle) (chain : List AuditLogEntry)
      (op : α → β × AuditEvent) (x : α) (ts : String),
      runWithAudit o chain op x ts = (op x).1) := by
  constructor
  · intro o chain e ts err herr
    simp [recordAndSwallow, herr, Except.toOption]
  · intro α β o chain op x ts
    rfl

/-- C5 witness: a run in which every collaborator fails still yields the
business result, and an exhausted-retries record is swallowed. -/
theorem c5_record_never_raises_witness :
    recordAndSwallow ⟨[false, false, false], true, true⟩ []
      ⟨"", "", "", none, none, "", "", none, none, none, none⟩ "" = none ∧
    runWithAudit ⟨[], false, false⟩ []
      (fun n : Nat => (n + 1, ⟨"", "", "", none, none, "", "", none, none, none, none⟩))
      41 "" = 42 := by
  constructor
  · exact c5_record_never_raises.1 ⟨[false, false, false], true, true⟩ []
      ⟨"", "", "", none, none, "", "", none, none, none, none⟩ ""
      .chainConflictExhausted rfl
  · exact c5_record_never_raises.2 ⟨[], false, false⟩ []
      (fun n : Nat => (n + 1, ⟨"", "", "", none, none, "", "", none, none, none, none⟩))
      41 ""

/-! ## Survey-status cron handler (C7)

Embedded from apps/web/app/api/v1/cron (route.ts): the POST handler closes
inProgress surveys whose closeOnDate has passed, then starts scheduled
surveys whose runOnDate has passed, each via a findMany on the current
database state followed by an updateMany on the collected ids. -/

/-- Survey status enumeration of the Prisma schema. -/
inductive SurveyStatus where
  | draft
  | scheduled
  | inProgress
  | paused
  | completed
deriving DecidableEq

/-- The survey fields the cron handler touches. -/
structure Survey where
  id : String
  status : SurveyStatus
  closeOnDate : Option Nat
  runOnDate : Option Nat
deriving DecidableEq

/-- Prisma lte-filter on a nullable date: null never matches. -/
def dueBy (d : Option Nat) (now : Nat) : Bool :=
  match d with
  | none => false
  | some t => t ≤ now

/-- Filter condition of the first findMany: status inProgress and
closeOnDate lte now. -/
def closeDue (now : Nat) (s : Survey) : Bool :=
  s.status == .inProgress && dueBy s.closeOnDate now

/-- Filter condition of the second findMany: status scheduled and runOnDate
lte now. -/
def runDue (now : Nat) (s : Survey) : Bool :=
  s.status == .scheduled && dueBy s.runOnDate now

/-- The updateMany of the handler: set the status of every survey whose id
is in the collected id list. -/
def updateStatusByIds (l : List Survey) (ids : List String) (st : SurveyStatus) :
    List Survey :=
  l.map fun s => if ids.contains s.id then { s with status := st } else s

/-- The cron POST handler: close due inProgress surveys, then — on the
updated state — start due scheduled surveys; each updateMany is skipped
when its findMany returned nothing. -/
def surveyStatusCron (now : Nat) (db : List Survey) : List Survey :=
  let surveysToClose := db.filter (closeDue now)
  let db1 :=
    if surveysToClose.length ≠ 0 then
      updateStatusByIds db (surveysToClose.map Survey.id) .completed
    else db
  let scheduledSurveys := db1.filter (runDue now)
  if scheduledSurveys.length ≠ 0 then
    updateStatusByIds db1 (scheduledSurveys.map Survey.id) .inProgress
  else db1

/-- Closing step applied to one survey, as the claim states it. -/
def closeStep (now : Nat) (s : Survey) : Survey :=
  if closeDue now s then { s with status := .completed } else s

/-- Starting step applied to one survey, as the claim states it. -/
def runStep (now : Nat) (s : Survey) : Survey :=
  if runDue now s then { s with status := .inProgress } else s

/-- Per-survey effect of the handler as the claim states it: inProgress
surveys past closeOnDate become completed, scheduled surveys past runOnDate
become inProgress, every other survey is unchanged. -/
def applyCron (now : Nat) (s : Survey) : Survey :=
  if s.status == .inProgress && dueBy s.closeOnDate now then
    { s with status := .completed }
  else if s.status == .scheduled && dueBy s.runOnDate now then
    { s with status := .inProgress }
  else s

theorem updateStatusByIds_filter (l : List Survey) (p : Survey → Bool)
    (st : SurveyStatus) (hnodup : (l.map Survey.id).Nodup) :
    updateStatusByIds l ((l.filter p).map Survey.id) st =
      l.map fun s => if p s then { s with status := st } else s := by
  refine List.map_congr_left ?_
  intro s hs
  have hcontains : ((l.filter p).map Survey.id).contains s.id = p s := by
    by_cases hp : p s
    · have hmem : s.id ∈ (l.filter p).map Survey.id :=
        List.mem_map_of_mem _ (List.mem_filter.mpr ⟨hs, hp⟩)
      simp [hp, hmem]
    · simp only [hp]
      by_contra hcon
      rw [Bool.not_eq_false] at hcon
      have hmem : s.id ∈ (l.filter p).map Survey.id := by simpa using hcon
      obtain ⟨s2, hs2, hid⟩ := List.mem_map.mp hmem
      obtain ⟨hs2l, hps2⟩ := List.mem_filter.mp hs2
      have heq : s2 = s := List.inj_on_of_nodup_map hnodup hs2l hs hid
      rw [heq] at hps2
      exact hp hps2
  rw [hcontains]

theorem map_id_of_pred_false (l : List Survey) (p : Survey → Bool)
    (hnone : ∀ s ∈ l, p s = false) (st : SurveyStatus) :
    l.map (fun s => if p s then { s with status := st } else s) = l := by
  conv_rhs => rw [← List.map_id l]
  refine List.map_congr_left ?_
  intro s hs
  simp [hnone s hs]

theorem closeStep_id (now : Nat) (s : Survey) : (closeStep now s).id = s.id := by
  simp only [closeStep]
  split <;> rfl

theorem cron_eq_map (now : Nat) (db : List Survey)
    (hnodup : (db.map Survey.id).Nodup) :
    surveyStatusCron now db = (db.map (closeStep now)).map (runStep now) := by
  have hstage1 :
      (if (db.filter (closeDue now)).length ≠ 0 then
        updateStatusByIds db ((db.filter (closeDue now)).map Survey.id) .completed
      else db) = db.map (closeStep now) := by
    by_cases hlen : (db.filter (closeDue now)).length = 0
    · rw [if_neg (by omega)]
      have hnone : ∀ s ∈ db, closeDue now s = false := by
        intro s hs
        by_contra hcon
        rw [Bool.not_eq_false] at hcon
        have : s ∈ db.filter (closeDue now) := List.mem_filter.mpr ⟨hs, hcon⟩
        rw [List.length_eq_zero.mp hlen] at this
        exact absurd this (by simp)
      rw [show (db.map (closeStep now)) =
        db.map (fun s => if closeDue now s then { s with status := .completed } else s)
        from rfl]
      exact (map_id_of_pred_false db (closeDue now) hnone .completed).symm
    · rw [if_pos hlen]
      exact updateStatusByIds_filter db (closeDue now) .completed hnodup
  have hnodup1 : ((db.map (closeStep now)).map Survey.id).Nodup := by
    rw [List.map_map]
    have hcomp : Survey.id ∘ closeStep now = Survey.id :=
      funext fun s => closeStep_id now s
    rw [hcomp]
    exact hnodup
  have hstage2 :
      (if ((db.map (closeStep now)).filter (runDue now)).length ≠ 0 then
        updateStatusByIds (db.map (closeStep now))
          (((db.map (closeStep now)).filter (runDue now)).map Survey.id) .inProgress
      else db.map (closeStep now)) = (db.map (closeStep now)).map (runStep now) := by
    by_cases hlen : ((db.map (closeStep now)).filter (runDue now)).length = 0
    · rw [if_neg (by omega)]
      have hnone : ∀ s ∈ db.map (closeStep now), runDue now s = false := by
        intro s hs
        by_contra hcon
        rw [Bool.not_eq_false] at hcon
        have : s ∈ (db.map (closeStep now)).filter (runDue now) :=
          List.mem_filter.mpr ⟨hs, hcon⟩
        rw [List.length_eq_zero.mp hlen] at this
        exact absurd this (by simp)
      rw [show ((db.map (closeStep now)).map (runStep now)) =
        (db.map (closeStep now)).map
          (fun s => if runDue now s then { s with status := .inProgress } else s)
        from rfl]
      exact (map_id_of_pred_false _ (runDue now) hnone .inProgress).symm
    · rw [if_pos hlen]
      exact updateStatusByIds_filter _ (runDue now) .inProgress hnodup1
  show (let db1 :=
      if (db.filter (closeDue now)).length ≠ 0 then
        updateStatusByIds db ((db.filter (closeDue now)).map Survey.id) .completed
      else db
    let scheduledSurveys := db1.filter (runDue now)
    if scheduledSurveys.length ≠ 0 then
      updateStatusByIds db1 (scheduledSurveys.map Survey.id) .inProgress
    else db1) = (db.map (closeStep now)).map (runStep now)
  rw [hstage1]
  exact hstage2

theorem runStep_closeStep (now : Nat) (s : Survey) :
    runStep now (closeStep now s) = applyCron now s := by
  rcases s with ⟨i, st, cd, rd⟩
  cases st <;>
    by_cases hc : dueBy cd now <;>
    by_cases hr : dueBy rd now <;>
    simp [closeStep, runStep, closeDue, runDue, applyCron, hc, hr]

/-- C7: with pairwise-distinct survey ids, the cron handler sets every due
inProgress survey to completed, sets every due scheduled survey to
inProgress, and changes nothing else: it acts as the pointwise applyCron
map over the database. -/
theorem c7_cron_status_flips (now : Nat) (db : List Survey)
    (hnodup : (db.map Survey.id).Nodup) :
    surveyStatusCron now db = db.map (applyCron now) := by
  rw [cron_eq_map now db hnodup, List.map_map]
  exact List.map_congr_left fun s _ => runStep_closeStep now s

/-- C7 witness: the handler on a concrete five-survey database. -/
theorem c7_cron_status_flips_witness :
    surveyStatusCron 100
      [⟨"a", .inProgress, some 50, none⟩,
       ⟨"b", .inProgress, some 150, none⟩,
       ⟨"c", .scheduled, none, some 70⟩,
       ⟨"d", .scheduled, none, some 130⟩,
       ⟨"e", .draft, some 10, some 10⟩] =
      [⟨"a", .completed, some 50, none⟩,
       ⟨"b", .inProgress, some 150, none⟩,
       ⟨"c", .inProgress, none, some 70⟩,
       ⟨"d", .scheduled, none, some 130⟩,
       ⟨"e", .draft, some 10, some 10⟩] := by
  rw [c7_cron_status_flips 100 _ (by decide)]
  decide

/-! ## In-memory rate limiter (C8)

Embedded from apps/web/lib/utils/rate-limit.ts: inMemoryRateLimiter keeps a
per-token usage count in an LRU cache whose TTL is one interval; within a
single interval and for well under the cache capacity the cache behaves as
a key-value map, modelled as an association list. -/

/-- Options of the rate limiter. -/
structure RateLimitOptions where
  interval : Nat
  allowedPerInterval : Nat

/-- The token cache within one interval: token to usage count. -/
def TokenCache : Type := List (String × Nat)

/-- Cache lookup. -/
def cacheGet : TokenCache → String → Option Nat
  | [], _ => none
  | kv :: rest, t => if kv.1 == t then some kv.2 else cacheGet rest t

/-- Cache write: overwrite the token's entry or append a new one. -/
def cacheSet : TokenCache → String → Nat → TokenCache
  | [], t, n => [(t, n)]
  | kv :: rest, t, n =>
    if kv.1 == t then (t, n) :: rest else kv :: cacheSet rest t n

/-- One call of the function returned by inMemoryRateLimiter: read the
token's usage (0 when absent), throw when it reaches the allowance,
otherwise store usage + 1. -/
def inMemoryRateLimiter (options : RateLimitOptions) (tokenCache : TokenCache)
    (token : String) : Except String TokenCache :=
  let currentUsage := (cacheGet tokenCache token).getD 0
  if currentUsage ≥ options.allowedPerInterval then
    .error "Rate limit exceeded"
  else
    .ok (cacheSet tokenCache token (currentUsage + 1))

/-- A sequence of n rate-limited calls for the same token, stopping at the
first thrown error. -/
def runCalls (options : RateLimitOptions) (token : String) :
    Nat → TokenCache → Except String TokenCache
  | 0, c => .ok c
  | n + 1, c =>
    match inMemoryRateLimiter options c token with
    | .ok c2 => runCalls options token n c2
    | .error e => .error e

theorem cacheGet_set_self :
    ∀ (c : TokenCache) (t : String) (n : Nat), cacheGet (cacheSet c t n) t = some n
  | [], t, n => by simp [cacheSet, cacheGet]
  | kv :: rest, t, n => by
    by_cases h : kv.1 == t
    · simp [cacheSet, cacheGet, h]
    · simp only [cacheSet, cacheGet]
      rw [if_neg (by simpa using h)]
      simp only [cacheGet]
      rw [if_neg (by simpa using h)]
      exact cacheGet_set_self rest t n

theorem runCalls_ok (options : RateLimitOptions) (token : String) :
    ∀ (n : Nat) (c : TokenCache),
      (cacheGet c token).getD 0 + n ≤ options.allowedPerInterval →
      ∃ c2, runCalls options token n c = .ok c2 ∧
        (cacheGet c2 token).getD 0 = (cacheGet c token).getD 0 + n
  | 0, c, _ => ⟨c, rfl, rfl⟩
  | n + 1, c, hle => by
    have hlt : (cacheGet c token).getD 0 < options.allowedPerInterval := by omega
    have hstep : inMemoryRateLimiter options c token =
        .ok (cacheSet c token ((cacheGet c token).getD 0 + 1)) := by
      simp only [inMemoryRateLimiter]
      rw [if_neg (by omega)]
    have hcount : (cacheGet (cacheSet c token ((cacheGet c token).getD 0 + 1))
        token).getD 0 = (cacheGet c token).getD 0 + 1 := by
      rw [cacheGet_set_self]
      rfl
    obtain ⟨c2, hrun, hc2⟩ := runCalls_ok options token n
      (cacheSet c token ((cacheGet c token).getD 0 + 1)) (by omega)
    refine ⟨c2, ?_, by omega⟩
    simp only [runCalls, hstep]
    exact hrun

/-- C8: a call while the cached usage count is at or above
allowedPerInterval throws "Rate limit exceeded"; a call below the allowance
succeeds and increments the token's count by exactly one; hence the first
allowedPerInterval calls for a fresh token all resolve successfully. -/
theorem c8_in_memory_rate_limiter (options : RateLimitOptions)
    (tokenCache : TokenCache) (token : String) :
    ((cacheGet tokenCache token).getD 0 ≥ options.allowedPerInterval →
      inMemoryRateLimiter options tokenCache token =
        .error "Rate limit exceeded") ∧
    ((cacheGet tokenCache token).getD 0 < options.allowedPerInterval →
      inMemoryRateLimiter options tokenCache token =
        .ok (cacheSet tokenCache token ((cacheGet tokenCache token).getD 0 + 1)) ∧
      (cacheGet (cacheSet tokenCache token
        ((cacheGet tokenCache token).getD 0 + 1)) token) =
        some ((cacheGet tokenCache token).getD 0 + 1)) ∧
    (∀ n : Nat, n ≤ options.allowedPerInterval →
      ∃ c2, runCalls options token n [] = .ok c2 ∧
        (cacheGet c2 token).getD 0 = n) := by
  refine ⟨?_, ?_, ?_⟩
  · intro hge
    simp only [inMemoryRateLimiter]
    rw [if_pos hge]
  · intro hlt
    refine ⟨?_, cacheGet_set_self tokenCache token _⟩
    simp only [inMemoryRateLimiter]
    rw [if_neg (by omega)]
  · intro n hn
    obtain ⟨c2, hrun, hc2⟩ := runCalls_ok options token n []
      (by simpa [cacheGet] using hn)
    exact ⟨c2, hrun, by simpa [cacheGet] using hc2⟩

/-- C8 witness: two allowed calls then a rejection, with allowance 2. -/
theorem c8_in_memory_rate_limiter_witness :
    inMemoryRateLimiter ⟨60, 2⟩ [("ip", 2)] "ip" =
      .error "Rate limit exceeded" ∧
    (∃ c2, runCalls ⟨60, 2⟩ "ip" 2 [] = .ok c2 ∧
      (cacheGet c2 "ip").getD 0 = 2) ∧
    inMemoryRateLimiter ⟨60, 2⟩ [("ip", 1)] "ip" =
      .ok (cacheSet [("ip", 1)] "ip" 2) := by
  refine ⟨?_, ?_, ?_⟩
  · exact (c8_in_memory_rate_limiter ⟨60, 2⟩ [("ip", 2)] "ip").1 (by decide)
  · exact (c8_in_memory_rate_limiter ⟨60, 2⟩ [] "ip").2.2 2 (by decide)
  · exact ((c8_in_memory_rate_limiter ⟨60, 2⟩ [("ip", 1)] "ip").2.1 (by decide)).1

/-! ## Project permission lookup (C9)

Embedded from apps/web/modules/ee/teams/lib/roles.ts:
getProjectPermissionByUserId iterates over the project-team memberships of
teams containing the user (the rows returned by the Prisma query, taken
here as the input list) and keeps the highest permission seen. -/

/-- Team permission enumeration. -/
inductive TTeamPermission where
  | read
  | readWrite
  | manage
deriving DecidableEq, Fintype

/-- Rank of a permission in the order read < readWrite < manage. -/
def permRank : TTeamPermission → Nat
  | .read => 0
  | .readWrite => 1
  | .manage => 2

/-- Loop body of getProjectPermissionByUserId. -/
def updateHighest (highest : Option TTeamPermission) (m : TTeamPermission) :
    Option TTeamPermission :=
  if m = .manage then some .manage
  else if m = .readWrite ∧ highest ≠ some .manage then some .readWrite
  else if m = .read ∧ highest ≠ some .manage ∧ highest ≠ some .readWrite then
    some .read
  else highest

/-- The permission computation of getProjectPermissionByUserId: fold the
loop body over the membership rows starting from null. -/
def getProjectPermissionByUserId
    (projectMemberships : List TTeamPermission) : Option TTeamPermission :=
  projectMemberships.foldl updateHighest none

theorem updateHighest_ne_none :
    ∀ (acc : Option TTeamPermission) (m : TTeamPermission),
      updateHighest acc m ≠ none := by decide

theorem updateHighest_source :
    ∀ (acc : Option TTeamPermission) (m r : TTeamPermission),
      updateHighest acc m = some r → r = m ∨ acc = some r := by decide

theorem updateHighest_ge_new :
    ∀ (acc : Option TTeamPermission) (m r : TTeamPermission),
      updateHighest acc m = some r → permRank m ≤ permRank r := by decide

theorem updateHighest_ge_old :
    ∀ (acc : Option TTeamPermission) (m r a : TTeamPermission),
      updateHighest acc m = some r → acc = some a →
      permRank a ≤ permRank r := by decide

theorem foldl_updateHighest :
    ∀ (ms : List TTeamPermission) (acc : Option TTeamPermission),
      (ms.foldl updateHighest acc = none ↔ (acc = none ∧ ms = [])) ∧
      (∀ r, ms.foldl updateHighest acc = some r →
        (r ∈ ms ∨ acc = some r) ∧
        (∀ m ∈ ms, permRank m ≤ permRank r) ∧
        (∀ a, acc = some a → permRank a ≤ permRank r))
  | [], acc => by
    constructor
    · simp
    · intro r hr
      refine ⟨Or.inr hr, by simp, ?_⟩
      intro a ha
      rw [ha] at hr
      injection hr with hra
      rw [hra]
  | m :: ms, acc => by
    have hb : ∃ b, updateHighest acc m = some b := by
      cases hu : updateHighest acc m with
      | none => exact absurd hu (updateHighest_ne_none acc m)
      | some b => exact ⟨b, rfl⟩
    obtain ⟨b, hub⟩ := hb
    have ih := foldl_updateHighest ms (updateHighest acc m)
    constructor
    · simp only [List.foldl_cons]
      rw [ih.1]
      simp [hub]
    · intro r hr
      simp only [List.foldl_cons] at hr
      obtain ⟨hmem, hmax, hacc⟩ := ih.2 r hr
      have hbr : permRank b ≤ permRank r := hacc b hub
      refine ⟨?_, ?_, ?_⟩
      · rcases hmem with hm | hm
        · exact Or.inl (List.mem_cons_of_mem m hm)
        · rcases updateHighest_source acc m r hm with hs | hs
          · refine Or.inl ?_
            rw [hs]
            exact List.mem_cons_self m ms
          · exact Or.inr hs
      · intro x hx
        rcases List.mem_cons.mp hx with hxm | hxms
        · subst hxm
          exact le_trans (updateHighest_ge_new acc x b hub) hbr
        · exact hmax x hxms
      · intro a ha
        exact le_trans (updateHighest_ge_old acc m b a hub ha) hbr

/-- C9: the permission computation returns the maximum permission over the
membership rows under the order read < readWrite < manage, and returns
null exactly when there are no membership rows. -/
theorem c9_project_permission_max (projectMemberships : List TTeamPermission) :
    (getProjectPermissionByUserId projectMemberships = none ↔
      projectMemberships = []) ∧
    (∀ r, getProjectPermissionByUserId projectMemberships = some r →
      r ∈ projectMemberships ∧
      ∀ m ∈ projectMemberships, permRank m ≤ permRank r) := by
  have h := foldl_updateHighest projectMemberships none
  constructor
  · rw [getProjectPermissionByUserId, h.1]
    simp
  · intro r hr
    obtain ⟨hmem, hmax, _⟩ := h.2 r hr
    refine ⟨?_, hmax⟩
    rcases hmem with hm | hm
    · exact hm
    · exact absurd hm (by simp)

/-- C9 witness: a concrete membership list whose maximum is manage, and the
null case on the empty list. -/
theorem c9_project_permission_max_witness :
    (TTeamPermission.manage ∈
        [TTeamPermission.read, TTeamPermission.manage, TTeamPermission.readWrite] ∧
      ∀ m ∈ [TTeamPermission.read, TTeamPermission.manage,
        TTeamPermission.readWrite], permRank m ≤ permRank .manage) ∧
    getProjectPermissionByUserId [] = none := by
  constructor
  · exact (c9_project_permission_max
      [TTeamPermission.read, TTeamPermission.manage, TTeamPermission.readWrite]).2
      .manage rfl
  · exact (c9_project_permission_max []).1.mpr rfl

/-! ## Webhook update/delete error handling (C10)

Embedded from the V2 webhook management library: updateWebhook and
deleteWebhook wrap the Prisma call in a try/catch and always return a
Result — ok with the affected webhook, err of type not_found for known
request errors with code RecordDoesNotExist or RelatedRecordDoesNotExist,
and err of type internal_server_error for every other error. -/

/-- The webhook row, abstracted to its identifier. -/
structure Webhook where
  id : String
deriving DecidableEq

/-- Prisma known-request-error codes relevant to the handlers. -/
inductive PrismaErrorCode where
  | RecordDoesNotExist
  | RelatedRecordDoesNotExist
  | UniqueConstraintViolation
  | ForeignKeyConstraintViolation
deriving DecidableEq

/-- Outcome of the underlying prisma.webhook.update / delete call: success,
a known request error carrying a code, or any other thrown error. -/
inductive PrismaOutcome where
  | success (webhook : Webhook)
  | knownRequestError (code : PrismaErrorCode) (message : String)
  | otherError (message : String)
deriving DecidableEq

/-- One detail item of a V2 API error body. -/
structure ApiErrorDetail where
  field : String
  issue : String
deriving DecidableEq

/-- The V2 API error body: error type plus details. -/
structure ApiErrorResponseV2 where
  type : String
  details : List ApiErrorDetail
deriving DecidableEq

/-- updateWebhook: prisma.webhook.update wrapped in try/catch, mapping the
two missing-record codes to not_found and every other error to
internal_server_error. -/
def updateWebhook (dbResult : PrismaOutcome) : Except ApiErrorResponseV2 Webhook :=
  match dbResult with
  | .success w => .ok w
  | .knownRequestError code msg =>
    if code = .RecordDoesNotExist ∨ code = .RelatedRecordDoesNotExist then
      .error ⟨"not_found", [⟨"webhook", "not found"⟩]⟩
    else
      .error ⟨"internal_server_error", [⟨"webhook", msg⟩]⟩
  | .otherError msg => .error ⟨"internal_server_error", [⟨"webhook", msg⟩]⟩

/-- deleteWebhook: prisma.webhook.delete wrapped in the same try/catch
mapping as updateWebhook. -/
def deleteWebhook (dbResult : PrismaOutcome) : Except ApiErrorResponseV2 Webhook :=
  match dbResult with
  | .success w => .ok w
  | .knownRequestError code msg =>
    if code = .RecordDoesNotExist ∨ code = .RelatedRecordDoesNotExist then
      .error ⟨"not_found", [⟨"webhook", "not found"⟩]⟩
    else
      .error ⟨"internal_server_error", [⟨"webhook", msg⟩]⟩
  | .otherError msg => .error ⟨"internal_server_error", [⟨"webhook", msg⟩]⟩

/-- C10: updateWebhook and deleteWebhook never throw — every input yields
ok with the affected webhook on success, err of type not_found for a known
error with code RecordDoesNotExist or RelatedRecordDoesNotExist, and err of
type internal_server_error for every other error. -/
theorem c10_webhook_results :
    (∀ d : PrismaOutcome,
      (∃ w, updateWebhook d = .ok w) ∨
      (∃ e, updateWebhook d = .error e ∧
        (e.type = "not_found" ∨ e.type = "internal_server_error"))) ∧
    (∀ d : PrismaOutcome,
      (∃ w, deleteWebhook d = .ok w) ∨
      (∃ e, deleteWebhook d = .error e ∧
        (e.type = "not_found" ∨ e.type = "internal_server_error"))) ∧
    (∀ w, updateWebhook (.success w) = .ok w ∧
      deleteWebhook (.success w) = .ok w) ∧
    (∀ code msg,
      (code = .RecordDoesNotExist ∨ code = .RelatedRecordDoesNotExist) →
      updateWebhook (.knownRequestError code msg) =
        .error ⟨"not_found", [⟨"webhook", "not found"⟩]⟩ ∧
      deleteWebhook (.knownRequestError code msg) =
        .error ⟨"not_found", [⟨"webhook", "not found"⟩]⟩) ∧
    (∀ code msg, code ≠ .RecordDoesNotExist →
      code ≠ .RelatedRecordDoesNotExist →
      updateWebhook (.knownRequestError code msg) =
        .error ⟨"internal_server_error", [⟨"webhook", msg⟩]⟩ ∧
      deleteWebhook (.knownRequestError code msg) =
        .error ⟨"internal_server_error", [⟨"webhook", msg⟩]⟩) ∧
    (∀ msg, updateWebhook (.otherError msg) =
        .error ⟨"internal_server_error", [⟨"webhook", msg⟩]⟩ ∧
      deleteWebhook (.otherError msg) =
        .error ⟨"internal_server_error", [⟨"webhook", msg⟩]⟩) := by
  refine ⟨?_, ?_, ?_, ?_, ?_, ?_⟩
  · intro d
    match d with
    | .success w => exact Or.inl ⟨w, rfl⟩
    | .knownRequestError code msg =>
      by_cases hc : code = .RecordDoesNotExist ∨ code = .RelatedRecordDoesNotExist
      · exact Or.inr ⟨⟨"not_found", [⟨"webhook", "not found"⟩]⟩,
          by simp [updateWebhook, hc], Or.inl rfl⟩
      · exact Or.inr ⟨⟨"internal_server_error", [⟨"webhook", msg⟩]⟩,
          by simp [updateWebhook, hc], Or.inr rfl⟩
    | .otherError msg => exact Or.inr ⟨_, rfl, Or.inr rfl⟩
  · intro d
    match d with
    | .success w => exact Or.inl ⟨w, rfl⟩
    | .knownRequestError code msg =>
      by_cases hc : code = .RecordDoesNotExist ∨ code = .RelatedRecordDoesNotExist
      · exact Or.inr ⟨⟨"not_found", [⟨"webhook", "not found"⟩]⟩,
          by simp [deleteWebhook, hc], Or.inl rfl⟩
      · exact Or.inr ⟨⟨"internal_server_error", [⟨"webhook", msg⟩]⟩,
          by simp [deleteWebhook, hc], Or.inr rfl⟩
    | .otherError msg => exact Or.inr ⟨_, rfl, Or.inr rfl⟩
  · intro w
    exact ⟨rfl, rfl⟩
  · intro code msg hc
    exact ⟨by simp [updateWebhook, hc], by simp [deleteWebhook, hc]⟩
  · intro code msg h1 h2
    have hc : ¬ (code = .RecordDoesNotExist ∨ code = .RelatedRecordDoesNotExist) := by
      simp [h1, h2]
    exact ⟨by simp [updateWebhook, hc], by simp [deleteWebhook, hc]⟩
  · intro msg
    exact ⟨rfl, rfl⟩

/-- C10 witness: each branch of the Result mapping at concrete inputs. -/
theorem c10_webhook_results_witness :
    (updateWebhook (.success ⟨"w1"⟩) = .ok ⟨"w1"⟩ ∧
      deleteWebhook (.success ⟨"w1"⟩) = .ok ⟨"w1"⟩) ∧
    (updateWebhook (.knownRequestError .RecordDoesNotExist "gone") =
        .error ⟨"not_found", [⟨"webhook", "not found"⟩]⟩ ∧
      deleteWebhook (.knownRequestError .RecordDoesNotExist "gone") =
        .error ⟨"not_found", [⟨"webhook", "not found"⟩]⟩) ∧
    (updateWebhook (.knownRequestError .UniqueConstraintViolation "dup") =
        .error ⟨"internal_server_error", [⟨"webhook", "dup"⟩]⟩ ∧
      deleteWebhook (.knownRequestError .UniqueConstraintViolation "dup") =
        .error ⟨"internal_server_error", [⟨"webhook", "dup"⟩]⟩) ∧
    (updateWebhook (.otherError "boom") =
        .error ⟨"internal_server_error", [⟨"webhook", "boom"⟩]⟩ ∧
      deleteWebhook (.otherError "boom") =
        .error ⟨"internal_server_error", [⟨"webhook", "boom"⟩]⟩) := by
  refine ⟨?_, ?_, ?_, ?_⟩
  · exact c10_webhook_results.2.2.1 ⟨"w1"⟩
  · exact c10_webhook_results.2.2.2.1 .RecordDoesNotExist "gone" (Or.inl rfl)
  · exact c10_webhook_results.2.2.2.2.1 .UniqueConstraintViolation "dup"
      (by decide) (by decide)
  · exact c10_webhook_results.2.2.2.2.2 "boom"

end Formbricks
